import Mathlib

/-
Verification development for the rclone-backed git remote helper
(`git_remote_dropbox/rclone_helper.py` and `git_remote_dropbox/cli/rclone.py`).

Modelling conventions (shallow embedding):
* File contents are modelled as `String` (the helper only ever treats them as
  text or passes them through opaquely).  The Python string primitives used
  by the source (`startswith`, `strip`, `split`, slicing, `int`) are
  re-implemented on the character-list representation (`strStartsWith`,
  `strTrim`, `strSplitOnCh`, `strTake`/`strDrop`, `strToNat?`) so that
  concrete instances evaluate inside the kernel.
* The `rclone` subprocess is an external collaborator.  Its observable
  behaviour is a record of functions (`Backend`): `cat`, `lsjson`,
  `deletefile`.  A failing invocation raises `RcloneError` in the source; we
  model the error as `RcloneErr`, where `dirNotFound` stands for an error
  whose stderr contains the string "directory not found" (the exact signal
  the source tests for) and `other` for any other failure text.
* The local `git` module (`git_remote_dropbox/git.py`) is not part of the
  sources under verification; every call into it (`ref_value`,
  `symbolic_ref_value`, `encode_object`, `decode_object`,
  `referenced_objects`, `list_objects`, and the `git merge-base
  --is-ancestor` subprocess) is modelled as a field of `GitEnv`.
* Writes performed by the helper (the single batched `rclone copy`, ref
  deletion, `rcat` of a symbolic ref, and acceptance of a fetched object into
  the local object database) are recorded as an ordered `Effect` trace
  rather than mutating a store, so that theorems can speak about what was
  written and in which order.  `applyEffects` gives the resulting remote
  key-value state of a trace.
* Paths are the backend-relative paths built by `_ref_path` / `_object_path`;
  the `remote:` prefixing of `_full_remote_path` is a bijective decoration
  that `_batch_copy` strips off again, so it is omitted.
-/

/-- Python `s.startswith(pre)`. -/
def strStartsWith (s pre : String) : Bool :=
  pre.data.isPrefixOf s.data

/-- Python `s[:n]`. -/
def strTake (s : String) (n : Nat) : String :=
  ⟨s.data.take n⟩

/-- Python `s[n:]`. -/
def strDrop (s : String) (n : Nat) : String :=
  ⟨s.data.drop n⟩

/-- Python `len(s)`. -/
def strLength (s : String) : Nat :=
  s.data.length

/-- Whitespace characters removed by Python's `str.strip`. -/
def isPyWs (c : Char) : Bool :=
  c = ' ' || c = '\t' || c = '\n' || c = '\r'

/-- Python `s.strip()`. -/
def strTrim (s : String) : String :=
  ⟨((s.data.dropWhile isPyWs).reverse.dropWhile isPyWs).reverse⟩

/-- Split a character list at every occurrence of a separator character;
Python `s.split(sep)` for a one-character separator. -/
def splitOnCh (sep : Char) : List Char → List (List Char)
  | [] => [[]]
  | c :: cs =>
    match splitOnCh sep cs with
    | [] => [[c]]
    | h :: t => if c = sep then [] :: h :: t else (c :: h) :: t

/-- Python `s.split(sep)` for a one-character separator. -/
def strSplitOnCh (sep : Char) (s : String) : List String :=
  (splitOnCh sep s.data).map String.mk

/-- Decimal accumulation for `strToNat?`. -/
def strToNatAux : List Char → Nat → Option Nat
  | [], acc => some acc
  | c :: cs, acc =>
    if '0' ≤ c ∧ c ≤ '9' then strToNatAux cs (acc * 10 + (c.toNat - '0'.toNat))
    else none

/-- Python `int(s)` for non-negative decimals; `none` models the raised
`ValueError` on malformed input. -/
def strToNat? (s : String) : Option Nat :=
  if s.data.isEmpty then none else strToNatAux s.data 0

/-- Substring test on character lists. -/
def containsSubAux (pat : List Char) : List Char → Bool
  | [] => pat.isEmpty
  | c :: cs => pat.isPrefixOf (c :: cs) || containsSubAux pat cs

/-- Python `pat in s` for strings. -/
def containsSubstr (s pat : String) : Bool :=
  containsSubAux pat.data s.data

/-- Error raised by a failing rclone invocation (`RcloneError` in the source).
`dirNotFound` models an error whose stderr contains "directory not found". -/
inductive RcloneErr
  | dirNotFound
  | other (msg : String)
deriving DecidableEq, Repr

/-- Python exceptions that can escape the helper's operations. -/
inductive PyErr
  | rclone (e : RcloneErr)
  | valueError
  | indexError
  | runtimeError (msg : String)
deriving DecidableEq, Repr

/-- One entry of rclone's `lsjson --recursive` output. -/
structure LsEntry where
  Path : String
  IsDir : Bool
deriving DecidableEq, Repr

/-- Observable writes performed by the helper.  `copyBatch` is the single
`rclone copy` of a staged directory (`_batch_copy`); `deleteFile` the
`rclone deletefile` of `_delete`; `rcat` the `rclone rcat` of
`write_symbolic_ref`; `localWrite sha` the acceptance of a fetched object
into the local object database during `_fetch`. -/
inductive Effect
  | copyBatch (files : List (String × String))
  | deleteFile (path : String)
  | rcat (path : String) (content : String)
  | localWrite (sha : String)
deriving DecidableEq, Repr

/-- Outcome of running `git merge-base --is-ancestor a b`:
either the subprocess ran and returned an exit code, or it could not be
executed at all (`subprocess.SubprocessError` / `FileNotFoundError`). -/
inductive MergeBaseResult
  | completed (returncode : Nat)
  | failed
deriving DecidableEq, Repr

/-- The read-only interface of the rclone backend as used by the helper. -/
structure Backend where
  cat : String → Except RcloneErr String
  lsjson : String → Except RcloneErr (List LsEntry)
  deletefile : String → Except RcloneErr Unit

/-- The local git database collaborator (module `git_remote_dropbox.git`,
which is not part of the sources under verification), plus the
`git merge-base --is-ancestor` subprocess spawned directly by `_push`. -/
structure GitEnv where
  symbolic_ref_value : String → String
  ref_value : String → String
  encode_object : String → String
  decode_object : String → String
  referenced_objects : String → List String
  merge_base_is_ancestor : String → String → MergeBaseResult
  list_objects : String → List String → List String

/-- Per-session protocol state (`RcloneHelper.__init__`): negotiated
verbosity and the first-push flag. -/
structure Session where
  verbosity : Nat
  first_push : Bool
deriving DecidableEq, Repr

/-- `RcloneHelper._ref_path`: refuses names outside `refs/`. -/
def ref_path (bp name : String) : Except PyErr String :=
  if strStartsWith name "refs/" then .ok (bp ++ "/" ++ name) else .error .valueError

/-- `RcloneHelper._object_path`: objects sharded by the two leading hash
characters. -/
def object_path (bp name : String) : String :=
  bp ++ "/objects/" ++ strTake name 2 ++ "/" ++ strDrop name 2

/-- `RcloneHelper._ref_name_from_path`. -/
def ref_name_from_path (bp path : String) : Except PyErr String :=
  if strStartsWith path (bp ++ "/") then .ok (strDrop path (strLength (bp ++ "/")))
  else .error .valueError

/-- Inner loop of `RcloneHelper.get_refs`: read each listed entry, skipping
directories, and skipping a single entry whose `cat` reports
"directory not found" (the file vanished between `lsjson` and `cat`);
any other rclone error propagates. -/
def getRefsEntries (backend : Backend) (loc bp : String) :
    List LsEntry → Except PyErr (List (String × String))
  | [] => .ok []
  | e :: es =>
    if e.IsDir then getRefsEntries backend loc bp es
    else
      match backend.cat (loc ++ "/" ++ e.Path) with
      | .error .dirNotFound => getRefsEntries backend loc bp es
      | .error err => .error (.rclone err)
      | .ok data =>
        match ref_name_from_path bp (loc ++ "/" ++ e.Path) with
        | .error err => .error err
        | .ok name =>
          match getRefsEntries backend loc bp es with
          | .error err => .error err
          | .ok rest => .ok ((strTrim data, name) :: rest)

/-- `RcloneHelper.get_refs`: list the ref namespace.  When the namespace
itself is absent ("directory not found" from `lsjson`) and `for_push` is
true, this is the first push to an empty repository and the listing is
empty; otherwise the error propagates. -/
def get_refs (backend : Backend) (bp : String) (for_push : Bool) :
    Except PyErr (List (String × String)) :=
  match backend.lsjson (bp ++ "/refs") with
  | .error .dirNotFound =>
      if for_push then .ok [] else .error (.rclone .dirNotFound)
  | .error e => .error (.rclone e)
  | .ok entries => getRefsEntries backend (bp ++ "/refs") bp entries

/-- `RcloneHelper.read_symbolic_ref`: absence yields `none`; the textual
`ref: ` marker is stripped.  The revision is a wall-clock pseudo-revision in
the source and is never interpreted, so it is modelled as a constant. -/
def read_symbolic_ref (backend : Backend) (bp path : String) :
    Except PyErr (Option (String × String)) :=
  match backend.cat (bp ++ "/" ++ path) with
  | .error .dirNotFound => .ok none
  | .error e => .error (.rclone e)
  | .ok data =>
      .ok (some ("rev",
        if strStartsWith (strTrim data) "ref: " then strDrop (strTrim data) 5
        else strTrim data))

/-- `RcloneHelper._delete`: attempt the backend delete, ignore any
`RcloneError`, and reply `ok <ref>` unconditionally. -/
def deleteOne (backend : Backend) (bp dst : String) :
    Except PyErr (List String × List Effect) :=
  match ref_path bp dst with
  | .error e => .error e
  | .ok path =>
    match backend.deletefile path with
    | .ok _ => .ok (["ok " ++ dst], [.deleteFile path])
    | .error _ => .ok (["ok " ++ dst], [.deleteFile path])

/-- The staged files of `RcloneHelper._batch_copy`, in staging order: every
object of the push closure, then the destination ref file. -/
def batchCopyFiles (env : GitEnv) (bp dst new_sha : String)
    (objects : List String) : List (String × String) :=
  (objects.map (fun sha => (object_path bp sha, env.encode_object sha)))
    ++ [(bp ++ "/" ++ dst, new_sha ++ "\n")]

/-- The `present` list of `RcloneHelper._push`: the top-level hashes of all
currently listed remote refs; any exception while listing leaves it empty. -/
def presentOf (backend : Backend) (bp : String) : List String :=
  match get_refs backend bp false with
  | .ok refs => refs.map Prod.fst
  | .error _ => []

/-- Tail of `RcloneHelper._push` once the fast-forward gate has been passed:
build `present`, compute the closure via `git.list_objects`, stage
everything together with the ref into one batch copy, reply `ok`. -/
def pushUpload (env : GitEnv) (backend : Backend) (bp src dst new_sha : String) :
    Except PyErr (List String × List Effect) :=
  .ok (["ok " ++ dst],
    [.copyBatch (batchCopyFiles env bp dst new_sha
      (env.list_objects src (presentOf backend bp)))])

/-- Fast-forward gate of `RcloneHelper._push` (force marker already
stripped): read the current remote value of the destination ref (any rclone
error is treated as absence), and for a non-forced update of an existing
ref consult `git merge-base --is-ancestor`; a completed query with non-zero
exit code rejects the push with a `non-fast-forward` conflict reply and no
writes, while a query that could not be executed lets the push proceed.
The source's branch condition `if current_remote_sha and not force` tests
Python truthiness of the stripped file content, so a ref file whose
content strips to the empty string also skips the gate and the push
proceeds; the inner `if cur = ""` mirrors that. -/
def pushGate (env : GitEnv) (backend : Backend) (bp src dst refpath : String)
    (force : Bool) : Except PyErr (List String × List Effect) :=
  match (match backend.cat refpath with
         | .ok data => some (strTrim data)
         | .error _ => none), force with
  | some cur, false =>
    if cur = "" then pushUpload env backend bp src dst (env.ref_value src)
    else
      match env.merge_base_is_ancestor cur (env.ref_value src) with
      | .completed rc =>
        if rc ≠ 0 then .ok (["error " ++ dst ++ " non-fast-forward"], [])
        else pushUpload env backend bp src dst (env.ref_value src)
      | .failed => pushUpload env backend bp src dst (env.ref_value src)
  | _, _ => pushUpload env backend bp src dst (env.ref_value src)

/-- `RcloneHelper._push`: strip the force marker, then run the fast-forward
gate and, if allowed, the batched upload. -/
def pushOne (env : GitEnv) (backend : Backend) (bp src0 dst : String) :
    Except PyErr (List String × List Effect) :=
  match ref_path bp dst with
  | .error e => .error e
  | .ok refpath =>
    if strStartsWith src0 "+" then
      pushGate env backend bp (strDrop src0 1) dst refpath true
    else
      pushGate env backend bp src0 dst refpath false

/-- The remote-HEAD candidate update performed after each `_push` call
inside the push batch loop of `RcloneHelper.run` (also after a rejected
push, since `_push` returns normally on rejection). -/
def rhUpdate (env : GitEnv) (fp : Bool) (rh : Option String) (src dst : String) :
    Option String :=
  if fp ∧ (rh = none ∨ src = env.symbolic_ref_value "HEAD") then some dst else rh

/-- One parsed line of a push batch: `line.split(" ")[1].split(":")`,
yielding the source (possibly empty or `+`-prefixed) and destination. -/
def parsePushArg (line : String) : Except PyErr (String × String) :=
  match (strSplitOnCh ' ' line).drop 1 with
  | [] => .error .indexError
  | arg :: _ =>
    match strSplitOnCh ':' arg with
    | a :: b :: _ => .ok (a, b)
    | _ => .error .indexError

/-- Dispatch of one push-batch line: an empty source deletes the ref,
otherwise push it and update the remote-HEAD candidate. -/
def runPushCmd (env : GitEnv) (backend : Backend) (bp : String) (fp : Bool)
    (rh : Option String) (c : String × String) :
    Except PyErr (List String × List Effect × Option String) :=
  if c.1 = "" then
    match deleteOne backend bp c.2 with
    | .error e => .error e
    | .ok (outs, effs) => .ok (outs, effs, rh)
  else
    match pushOne env backend bp c.1 c.2 with
    | .error e => .error e
    | .ok (outs, effs) => .ok (outs, effs, rhUpdate env fp rh c.1 c.2)

/-- Parse then dispatch one push-batch line. -/
def pushStepLine (env : GitEnv) (backend : Backend) (bp : String) (fp : Bool)
    (rh : Option String) (line : String) :
    Except PyErr (List String × List Effect × Option String) :=
  match parsePushArg line with
  | .error e => .error e
  | .ok c => runPushCmd env backend bp fp rh c

/-- The HEAD write effect of `write_symbolic_ref` for a chosen candidate. -/
def headEffects (bp : String) (rh : Option String) : List Effect :=
  match rh with
  | some r => [.rcat (bp ++ "/HEAD") ("ref: " ++ r ++ "\n")]
  | none => []

/-- End-of-batch bookkeeping of the push loop: on the first push batch of
the session, write remote HEAD symbolically to the selected candidate (if
any) and clear the first-push flag. -/
def pushBatchFinish (bp : String) (fp : Bool) (rh : Option String) : List Effect :=
  if fp then headEffects bp rh else []

/-- The push batch loop of `RcloneHelper.run`: process the current line,
read the next; a blank line (or end of input) finishes the batch.  Returns
the protocol replies, the effect trace, the new first-push flag and the
unconsumed input lines. -/
def pushLoop (env : GitEnv) (backend : Backend) (bp : String) (fp : Bool) :
    String → List String → Option String →
    Except PyErr (List String × List Effect × Bool × List String)
  | line, [], rh =>
    match pushStepLine env backend bp fp rh line with
    | .error e => .error e
    | .ok (outs, effs, rh') => .ok (outs, effs ++ pushBatchFinish bp fp rh', false, [])
  | line, next :: rest', rh =>
    match pushStepLine env backend bp fp rh line with
    | .error e => .error e
    | .ok (outs, effs, rh') =>
      if next = "" then .ok (outs, effs ++ pushBatchFinish bp fp rh', false, rest')
      else
        match pushLoop env backend bp fp next rest' rh' with
        | .ok (o2, e2, b2, rem) => .ok (outs ++ o2, effs ++ e2, b2, rem)
        | .error e => .error e

/-- State of the recursive fetch walk `RcloneHelper._fetch`: the shared
seen-set (most recent first), the objects accepted into the local object
database in acceptance order, and the pending exception, if any. -/
structure FetchRes where
  seen : List String
  writes : List String
  err : Option PyErr
deriving DecidableEq, Repr

/-- `RcloneHelper._fetch`: recursively fetch an object and everything it
references, guarded by the seen-set.  The object's bytes are read from the
remote, re-hashed via `git.decode_object`, and a mismatch raises
`RuntimeError("hash mismatch")`; the object enters the local database only
when the hashes agree (see `objectsIntact` for the spec-modelled part).
A raised exception (`err` set) aborts all further work.  `fuel` bounds the
recursion depth for totality; every theorem either supplies sufficient fuel
explicitly or holds for all fuel values. -/
def fetchGo (env : GitEnv) (backend : Backend) (bp : String) :
    Nat → String → FetchRes → FetchRes
  | 0, _, st => st
  | fuel+1, sha, st =>
    if st.err.isSome then st
    else if sha ∈ st.seen then st
    else
      match backend.cat (object_path bp sha) with
      | .error e => { st with seen := sha :: st.seen, err := some (.rclone e) }
      | .ok data =>
        if env.decode_object data = sha then
          (env.referenced_objects sha).foldl
            (fun s r => fetchGo env backend bp fuel r s)
            { st with seen := sha :: st.seen, writes := st.writes ++ [sha] }
        else { st with seen := sha :: st.seen,
                       err := some (.runtimeError "hash mismatch") }

/-- One fetch line: `_, sha, _ = line.split(" ")`. -/
def parseFetchArg (line : String) : Except PyErr String :=
  match strSplitOnCh ' ' line with
  | [_, sha, _] => .ok sha
  | _ => .error .valueError

/-- The fetch batch loop of `RcloneHelper.run`: each line starts a fresh
fetch walk (fresh seen-set); a raised exception aborts the batch. -/
def fetchLoop (env : GitEnv) (backend : Backend) (bp : String) (ffuel : Nat) :
    String → List String → Except PyErr (List Effect × List String)
  | line, [] =>
    match parseFetchArg line with
    | .error e => .error e
    | .ok sha =>
      match (fetchGo env backend bp ffuel sha ⟨[], [], none⟩).err with
      | some e => .error e
      | none => .ok ((fetchGo env backend bp ffuel sha ⟨[], [], none⟩).writes.map
          Effect.localWrite, [])
  | line, next :: rest' =>
    match parseFetchArg line with
    | .error e => .error e
    | .ok sha =>
      match (fetchGo env backend bp ffuel sha ⟨[], [], none⟩).err with
      | some e => .error e
      | none =>
        if next = "" then
          .ok ((fetchGo env backend bp ffuel sha ⟨[], [], none⟩).writes.map
            Effect.localWrite, rest')
        else
          match fetchLoop env backend bp ffuel next rest' with
          | .ok (e2, rem) =>
            .ok ((fetchGo env backend bp ffuel sha ⟨[], [], none⟩).writes.map
              Effect.localWrite ++ e2, rem)
          | .error e => .error e

/-- The protocol dispatch loop of `RcloneHelper.run`.  Input is the list of
stdin lines (end of input reads as an empty line).  Returns the protocol
replies written to stdout, the effect trace, and the error diagnostics
(`_trace(..., Level.ERROR)`, always visible since ERROR is the lowest
level).  `ffuel` bounds fetch recursion; `fuel` bounds the dispatch loop
and any value exceeding the number of input lines is sufficient. -/
def runLoop (env : GitEnv) (backend : Backend) (bp : String) (ffuel : Nat) :
    Nat → Session → List String → Except PyErr (List String × List Effect × List String)
  | 0, _, _ => .ok ([], [], [])
  | fuel+1, st, lines =>
    match lines with
    | [] => .ok ([], [], [])
    | line :: rest =>
      if line = "capabilities" then
        match runLoop env backend bp ffuel fuel st rest with
        | .ok (o, e, r) => .ok (["option", "push", "fetch", ""] ++ o, e, r)
        | .error err => .error err
      else if strStartsWith line "option" then
        if strStartsWith line "option verbosity" then
          match strToNat?
              (((strSplitOnCh ' ' line).filter (fun t => t ≠ "")).getLast?.getD "") with
          | none => .error .valueError
          | some v =>
            match runLoop env backend bp ffuel fuel { st with verbosity := v } rest with
            | .ok (o, e, r) => .ok ("ok" :: o, e, r)
            | .error err => .error err
        else
          match runLoop env backend bp ffuel fuel st rest with
          | .ok (o, e, r) => .ok ("unsupported" :: o, e, r)
          | .error err => .error err
      else if strStartsWith line "list" then
        match get_refs backend bp (containsSubstr line "for-push") with
        | .error err => .error err
        | .ok refs =>
          match read_symbolic_ref backend bp "HEAD" with
          | .error err => .error err
          | .ok head =>
            match runLoop env backend bp ffuel fuel st rest with
            | .ok (o, e, r) =>
                .ok ((refs.map (fun p => p.1 ++ " " ++ p.2))
                  ++ (match head with
                      | some (_, ref) => ["@" ++ ref ++ " HEAD"]
                      | none => [])
                  ++ [""] ++ o, e, r)
            | .error err => .error err
      else if strStartsWith line "push" then
        match pushLoop env backend bp st.first_push line rest none with
        | .error err => .error err
        | .ok (o1, e1, fp', rem) =>
          match runLoop env backend bp ffuel fuel { st with first_push := fp' } rem with
          | .ok (o, e, r) => .ok (o1 ++ [""] ++ o, e1 ++ e, r)
          | .error err => .error err
      else if strStartsWith line "fetch" then
        match fetchLoop env backend bp ffuel line rest with
        | .error err => .error err
        | .ok (e1, rem) =>
          match runLoop env backend bp ffuel fuel st rem with
          | .ok (o, e, r) => .ok ([""] ++ o, e1 ++ e, r)
          | .error err => .error err
      else if line = "" then .ok ([], [], [])
      else .ok ([], [], ["unsupported operation: " ++ line])

/-- A whole helper session on the given stdin lines, started with the
initial session state of `RcloneHelper.__init__` (verbosity INFO,
first-push flag set). -/
def runSession (env : GitEnv) (backend : Backend) (bp : String) (ffuel : Nat)
    (lines : List String) : Except PyErr (List String × List Effect × List String) :=
  runLoop env backend bp ffuel (lines.length + 1) ⟨1, true⟩ lines

/-- `cli/rclone.py main`: an exception escaping `helper.run()` exits with
status 1 (also under DEBUG verbosity, where re-raising kills the process
with a non-zero status); a normal return exits with status 0. -/
def mainExitCode {α : Type} (res : Except PyErr α) : Nat :=
  match res with
  | .ok _ => 0
  | .error _ => 1

/-- Replay of a staged batch onto a remote key-value state (path to file
contents).  Within a batch, later staged entries for the same path win. -/
def applyFiles (m : String → Option String) :
    List (String × String) → (String → Option String)
  | [] => m
  | (p, c) :: fs => applyFiles (fun q => if q = p then some c else m q) fs

/-- Replay of one effect onto the remote state; local-database writes do
not touch the remote. -/
def applyEffect (m : String → Option String) : Effect → (String → Option String)
  | .copyBatch files => applyFiles m files
  | .deleteFile p => fun q => if q = p then none else m q
  | .rcat p c => fun q => if q = p then some c else m q
  | .localWrite _ => m

/-- Replay of an effect trace, in order. -/
def applyEffects (m : String → Option String) : List Effect → (String → Option String)
  | [] => m
  | e :: es => applyEffects (applyEffect m e) es

deriving instance DecidableEq for Except

/-- Within one staged batch, the final staged entry for a path determines
that path's resulting contents. -/
theorem applyFiles_concat_self (m : String → Option String)
    (l : List (String × String)) (p c : String) :
    applyFiles m (l ++ [(p, c)]) p = some c := by
  induction l generalizing m with
  | nil => simp [applyFiles]
  | cons hd tl ih =>
    cases hd
    simpa [applyFiles] using ih _

/-- Claim C9: for every ref name, the protocol delete operation replies
`ok <ref>` even when the backend delete fails for a reason other than
absence: every `RcloneError` raised by `rclone deletefile` is swallowed, so
a failed deletion is still reported to the client as success.  The backend
is universally quantified, so the reply and the recorded effect are the
same whatever the delete's outcome. -/
theorem delete_swallows_backend_errors (backend : Backend) (bp dst : String)
    (hdst : strStartsWith dst "refs/" = true) :
    deleteOne backend bp dst =
      .ok (["ok " ++ dst], [.deleteFile (bp ++ "/" ++ dst)]) := by
  unfold deleteOne ref_path
  simp only [hdst, if_true]
  cases backend.deletefile (bp ++ "/" ++ dst) <;> rfl

/-- A backend whose delete always fails with a non-absence error. -/
def backendC9 : Backend where
  cat := fun _ => .error .dirNotFound
  lsjson := fun _ => .error .dirNotFound
  deletefile := fun _ => .error (.other "permission denied")

theorem delete_swallows_backend_errors_witness :
    (strStartsWith "refs/heads/x" "refs/" = true) ∧
    deleteOne backendC9 "repo" "refs/heads/x" =
      .ok (["ok refs/heads/x"], [.deleteFile "repo/refs/heads/x"]) :=
  ⟨by decide, delete_swallows_backend_errors backendC9 "repo" "refs/heads/x" (by decide)⟩

/-- Claim C7: listing refs for a push against a repository whose ref
namespace does not exist ("directory not found" from `lsjson`) yields an
empty listing rather than an error; for a non-push listing the same absence
is an error; and an individual entry whose read reports the file gone
("directory not found" from `cat`) is skipped, the rest of the listing
being processed exactly as if that entry were not there. -/
theorem list_refs_absence_handling (backend : Backend) (bp : String) :
    (backend.lsjson (bp ++ "/refs") = .error .dirNotFound →
      get_refs backend bp true = .ok []
      ∧ get_refs backend bp false = .error (.rclone .dirNotFound))
    ∧ (∀ (loc : String) (e : LsEntry) (es : List LsEntry),
        e.IsDir = false →
        backend.cat (loc ++ "/" ++ e.Path) = .error .dirNotFound →
        getRefsEntries backend loc bp (e :: es) = getRefsEntries backend loc bp es) := by
  constructor
  · intro hls
    constructor <;> (unfold get_refs; rw [hls]; rfl)
  · intro loc e es hdir hcat
    simp only [getRefsEntries, hdir, hcat]
    simp

/-- A backend with one readable ref and one that vanishes between listing
and reading. -/
def backendC7 : Backend where
  cat := fun p =>
    if p = "repo/refs/heads/a" then .ok "abc1\n" else .error .dirNotFound
  lsjson := fun _ => .error .dirNotFound
  deletefile := fun _ => .ok ()

theorem list_refs_absence_handling_witness :
    (backendC7.lsjson ("repo" ++ "/refs") = .error .dirNotFound) ∧
    ((⟨"heads/b", false⟩ : LsEntry).IsDir = false) ∧
    (backendC7.cat ("repo/refs" ++ "/" ++ "heads/b") = .error .dirNotFound) ∧
    (get_refs backendC7 "repo" true = .ok []
      ∧ get_refs backendC7 "repo" false = .error (.rclone .dirNotFound)) ∧
    (getRefsEntries backendC7 "repo/refs" "repo" [⟨"heads/b", false⟩, ⟨"heads/a", false⟩]
      = getRefsEntries backendC7 "repo/refs" "repo" [⟨"heads/a", false⟩]) :=
  ⟨by decide, by decide, by decide,
    (list_refs_absence_handling backendC7 "repo").1 (by decide),
    (list_refs_absence_handling backendC7 "repo").2 "repo/refs"
      ⟨"heads/b", false⟩ [⟨"heads/a", false⟩] (by decide) (by decide)⟩

/-- Claim C10: for a non-forced push to an existing remote ref, when the
`git merge-base --is-ancestor` subprocess cannot be executed
(`SubprocessError` / `FileNotFoundError` before any verdict), the push
proceeds exactly as a fast-forward would: it uploads the closure and the
ref in one batch, replies `ok`, and replaying the effects overwrites the
remote ref with the new value. -/
theorem push_proceeds_on_ancestry_query_failure (env : GitEnv) (backend : Backend)
    (bp src dst curData : String)
    (hplus : strStartsWith src "+" = false)
    (hdst : strStartsWith dst "refs/" = true)
    (hcat : backend.cat (bp ++ "/" ++ dst) = .ok curData)
    (hanc : env.merge_base_is_ancestor (strTrim curData) (env.ref_value src) = .failed) :
    pushOne env backend bp src dst =
      .ok (["ok " ++ dst],
        [.copyBatch (batchCopyFiles env bp dst (env.ref_value src)
          (env.list_objects src (presentOf backend bp)))])
    ∧ pushOne env backend bp src dst =
        pushOne { env with merge_base_is_ancestor := fun _ _ => .completed 0 }
          backend bp src dst
    ∧ (∀ m : String → Option String,
        applyEffects m
          [.copyBatch (batchCopyFiles env bp dst (env.ref_value src)
            (env.list_objects src (presentOf backend bp)))] (bp ++ "/" ++ dst)
          = some (env.ref_value src ++ "\n")) := by
  have key : pushOne env backend bp src dst
      = pushUpload env backend bp src dst (env.ref_value src) := by
    unfold pushOne ref_path pushGate
    simp only [hdst, if_true, hplus, Bool.false_eq_true, if_false, hcat]
    by_cases hcur : strTrim curData = ""
    · rw [if_pos hcur]
    · rw [if_neg hcur, hanc]
  refine ⟨?_, ?_, ?_⟩
  · rw [key]; rfl
  · rw [key]
    unfold pushOne ref_path pushGate
    simp only [hdst, if_true, hplus, Bool.false_eq_true, if_false, hcat]
    by_cases hcur : strTrim curData = ""
    · rw [if_pos hcur]
      rfl
    · rw [if_neg hcur]
      rfl
  · intro m
    simp only [applyEffects, applyEffect, batchCopyFiles]
    exact applyFiles_concat_self m _ _ _

/-- A backend with an existing destination ref. -/
def backendC10 : Backend where
  cat := fun p => if p = "repo/refs/heads/main" then .ok "base9\n" else .error .dirNotFound
  lsjson := fun _ => .error .dirNotFound
  deletefile := fun _ => .ok ()

/-- A git environment whose ancestry query cannot be executed. -/
def envC10 : GitEnv where
  symbolic_ref_value := fun _ => "refs/heads/main"
  ref_value := fun _ => "abc1"
  encode_object := fun _ => "OBJ"
  decode_object := fun d => d
  referenced_objects := fun _ => []
  merge_base_is_ancestor := fun _ _ => .failed
  list_objects := fun _ _ => ["abc1"]

theorem push_proceeds_on_ancestry_query_failure_witness :
    (strStartsWith "refs/heads/main" "+" = false) ∧
    (strStartsWith "refs/heads/main" "refs/" = true) ∧
    (backendC10.cat ("repo" ++ "/" ++ "refs/heads/main") = .ok "base9\n") ∧
    (envC10.merge_base_is_ancestor (strTrim "base9\n")
      (envC10.ref_value "refs/heads/main") = .failed) ∧
    (pushOne envC10 backendC10 "repo" "refs/heads/main" "refs/heads/main" =
      .ok (["ok refs/heads/main"],
        [.copyBatch (batchCopyFiles envC10 "repo" "refs/heads/main"
          (envC10.ref_value "refs/heads/main")
          (envC10.list_objects "refs/heads/main" (presentOf backendC10 "repo")))])
    ∧ pushOne envC10 backendC10 "repo" "refs/heads/main" "refs/heads/main" =
        pushOne { envC10 with merge_base_is_ancestor := fun _ _ => .completed 0 }
          backendC10 "repo" "refs/heads/main" "refs/heads/main"
    ∧ (∀ m : String → Option String,
        applyEffects m
          [.copyBatch (batchCopyFiles envC10 "repo" "refs/heads/main"
            (envC10.ref_value "refs/heads/main")
            (envC10.list_objects "refs/heads/main" (presentOf backendC10 "repo")))]
          ("repo" ++ "/" ++ "refs/heads/main")
          = some (envC10.ref_value "refs/heads/main" ++ "\n"))) :=
  ⟨by decide, by decide, by decide, by decide,
    push_proceeds_on_ancestry_query_failure envC10 backendC10 "repo"
      "refs/heads/main" "refs/heads/main" "base9\n"
      (by decide) (by decide) (by decide) (by decide)⟩

/-- Claim C1: a non-forced push whose destination ref exists on the remote
with an actual stored value (non-empty after stripping — a ref file whose
content strips to empty is falsy in Python and skips the gate) and whose
current value is reported as not an ancestor of the new value
(the ancestry subprocess completed with a non-zero exit code) is rejected:
the only reply is the `non-fast-forward` conflict line, the effect trace is
empty (nothing uploaded, so replaying the effects leaves every remote path,
in particular the destination ref, unchanged), and inside a push batch the
remaining lines are processed exactly as they would be without the rejected
line (only the remote-HEAD candidate bookkeeping advances). -/
theorem push_rejects_non_fast_forward (env : GitEnv) (backend : Backend)
    (bp src dst curData : String) (rc : Nat)
    (hplus : strStartsWith src "+" = false)
    (hsrc : src ≠ "")
    (hdst : strStartsWith dst "refs/" = true)
    (hcat : backend.cat (bp ++ "/" ++ dst) = .ok curData)
    (hcur : strTrim curData ≠ "")
    (hanc : env.merge_base_is_ancestor (strTrim curData) (env.ref_value src)
      = .completed rc)
    (hrc : rc ≠ 0) :
    pushOne env backend bp src dst =
      .ok (["error " ++ dst ++ " non-fast-forward"], [])
    ∧ (∀ m : String → Option String, applyEffects m [] = m)
    ∧ (∀ (fp : Bool) (line next : String) (rest : List String) (rh : Option String),
        parsePushArg line = .ok (src, dst) → next ≠ "" →
        pushLoop env backend bp fp line (next :: rest) rh =
          (match pushLoop env backend bp fp next rest (rhUpdate env fp rh src dst) with
           | .ok (o2, e2, b2, rem) =>
               .ok (("error " ++ dst ++ " non-fast-forward") :: o2, e2, b2, rem)
           | .error e => .error e)) := by
  have key : pushOne env backend bp src dst =
      .ok (["error " ++ dst ++ " non-fast-forward"], []) := by
    unfold pushOne ref_path pushGate
    simp only [hdst, if_true, hplus, Bool.false_eq_true, if_false, hcat]
    rw [if_neg hcur, hanc]
    dsimp only
    rw [if_pos hrc]
  refine ⟨key, fun m => rfl, ?_⟩
  intro fp line next rest rh hparse hnext
  simp only [pushLoop, pushStepLine, hparse, runPushCmd, hsrc, if_false, key, hnext]
  cases h2 : pushLoop env backend bp fp next rest (rhUpdate env fp rh src dst) with
  | ok v =>
    obtain ⟨o2, e2, b2, rem⟩ := v
    simp
  | error e => simp

/-- A git environment whose ancestry query reports "not an ancestor"
(exit code 1 from `git merge-base --is-ancestor`). -/
def envC1 : GitEnv where
  symbolic_ref_value := fun _ => "refs/heads/main"
  ref_value := fun _ => "new1"
  encode_object := fun _ => "OBJ"
  decode_object := fun d => d
  referenced_objects := fun _ => []
  merge_base_is_ancestor := fun _ _ => .completed 1
  list_objects := fun _ _ => ["new1"]

/-- A backend on which the destination ref `refs/heads/main` exists. -/
def backendC1 : Backend where
  cat := fun p => if p = "repo/refs/heads/main" then .ok "old9\n" else .error .dirNotFound
  lsjson := fun _ => .error .dirNotFound
  deletefile := fun _ => .ok ()

theorem push_rejects_non_fast_forward_witness :
    (strStartsWith "refs/heads/main" "+" = false) ∧
    ("refs/heads/main" ≠ "") ∧
    (strStartsWith "refs/heads/main" "refs/" = true) ∧
    (backendC1.cat ("repo" ++ "/" ++ "refs/heads/main") = .ok "old9\n") ∧
    (strTrim "old9\n" ≠ "") ∧
    (envC1.merge_base_is_ancestor (strTrim "old9\n")
      (envC1.ref_value "refs/heads/main") = .completed 1) ∧
    ((1 : Nat) ≠ 0) ∧
    (pushOne envC1 backendC1 "repo" "refs/heads/main" "refs/heads/main" =
        .ok (["error refs/heads/main non-fast-forward"], [])
      ∧ (∀ m : String → Option String, applyEffects m [] = m)
      ∧ (∀ (fp : Bool) (line next : String) (rest : List String) (rh : Option String),
          parsePushArg line = .ok ("refs/heads/main", "refs/heads/main") → next ≠ "" →
          pushLoop envC1 backendC1 "repo" fp line (next :: rest) rh =
            (match pushLoop envC1 backendC1 "repo" fp next rest
                (rhUpdate envC1 fp rh "refs/heads/main" "refs/heads/main") with
             | .ok (o2, e2, b2, rem) =>
                 .ok (("error refs/heads/main non-fast-forward") :: o2, e2, b2, rem)
             | .error e => .error e))) :=
  ⟨by decide, by decide, by decide, by decide, by decide, by decide, by decide,
    push_rejects_non_fast_forward envC1 backendC1 "repo"
      "refs/heads/main" "refs/heads/main" "old9\n" 1
      (by decide) (by decide) (by decide) (by decide) (by decide) (by decide)
      (by decide)⟩

/-- An object whose remotely stored bytes do not hash back to its requested
name is never accepted into the local database, anywhere in any fetch
walk. -/
theorem fetchGo_never_writes_mismatched (env : GitEnv) (backend : Backend)
    (bp sha data : String)
    (hcat : backend.cat (object_path bp sha) = .ok data)
    (hmis : env.decode_object data ≠ sha) :
    ∀ (fuel : Nat) (root : String) (st : FetchRes),
      sha ∉ st.writes → sha ∉ (fetchGo env backend bp fuel root st).writes := by
  intro fuel
  induction fuel with
  | zero => intro root st h; exact h
  | succ n ih =>
    have fold : ∀ (l : List String) (st : FetchRes), sha ∉ st.writes →
        sha ∉ (l.foldl (fun s r => fetchGo env backend bp n r s) st).writes := by
      intro l
      induction l with
      | nil => intro st h; exact h
      | cons hd tl ihl => intro st h; exact ihl _ (ih hd st h)
    intro root st h
    unfold fetchGo
    split
    · exact h
    · split
      · exact h
      · cases hc : backend.cat (object_path bp root) with
        | error e => simpa using h
        | ok d =>
          dsimp only
          by_cases hd : env.decode_object d = root
          · rw [if_pos hd]
            apply fold
            simp only [List.mem_append, List.mem_singleton]
            rintro (hmem | hmem)
            · exact h hmem
            · rw [← hmem] at hc
              rw [hcat] at hc
              injection hc with hdd
              rw [← hmem] at hd
              rw [hdd] at hmis
              exact hmis hd
          · rw [if_neg hd]
            simpa using h

/-- Claim C4: if the bytes fetched for an object do not hash back to the
requested hash, the fetch raises the fatal hash-mismatch error: the walk
stops with the error recorded and the mismatching object not accepted into
the local store, the object is never written by any fetch walk whatsoever,
and a fetch batch beginning with that object aborts with the error (which
`main` turns into a non-zero exit). -/
theorem fetch_hash_mismatch_aborts (env : GitEnv) (backend : Backend)
    (bp sha data : String)
    (hcat : backend.cat (object_path bp sha) = .ok data)
    (hmis : env.decode_object data ≠ sha) :
    (∀ (fuel : Nat) (st : FetchRes), st.err = none → sha ∉ st.seen →
        fetchGo env backend bp (fuel + 1) sha st =
          { st with seen := sha :: st.seen, err := some (.runtimeError "hash mismatch") })
    ∧ (∀ (fuel : Nat) (root : String) (st : FetchRes),
        sha ∉ st.writes → sha ∉ (fetchGo env backend bp fuel root st).writes)
    ∧ (∀ (ffuel : Nat) (line : String) (rest : List String),
        parseFetchArg line = .ok sha →
        fetchLoop env backend bp (ffuel + 1) line rest =
          .error (.runtimeError "hash mismatch")) := by
  have one : ∀ (fuel : Nat) (st : FetchRes), st.err = none → sha ∉ st.seen →
      fetchGo env backend bp (fuel + 1) sha st =
        { st with seen := sha :: st.seen,
                  err := some (.runtimeError "hash mismatch") } := by
    intro fuel st herr hseen
    unfold fetchGo
    rw [herr]
    simp only [Option.isSome_none, Bool.false_eq_true, if_false, hseen, hcat,
      hmis, ite_false, if_neg hseen, if_neg hmis]
  refine ⟨one, fetchGo_never_writes_mismatched env backend bp sha data hcat hmis, ?_⟩
  intro ffuel line rest hparse
  have res0 : fetchGo env backend bp (ffuel + 1) sha ⟨[], [], none⟩ =
      ⟨[sha], [], some (.runtimeError "hash mismatch")⟩ := by
    have h := one ffuel ⟨[], [], none⟩ rfl (by simp)
    simpa using h
  cases rest with
  | nil =>
    unfold fetchLoop
    rw [hparse]
    dsimp only
    rw [res0]
  | cons next rest' =>
    unfold fetchLoop
    rw [hparse]
    dsimp only
    rw [res0]

/-- A git environment whose hash recomputation never matches the requested
object name. -/
def envC4 : GitEnv where
  symbolic_ref_value := fun _ => "refs/heads/main"
  ref_value := fun _ => "aa11"
  encode_object := fun _ => "OBJ"
  decode_object := fun _ => "tampered"
  referenced_objects := fun _ => []
  merge_base_is_ancestor := fun _ _ => .completed 0
  list_objects := fun _ _ => []

/-- A backend storing corrupted bytes for object `aa11`. -/
def backendC4 : Backend where
  cat := fun p => if p = "repo/objects/aa/11" then .ok "payload" else .error .dirNotFound
  lsjson := fun _ => .error .dirNotFound
  deletefile := fun _ => .ok ()

theorem fetch_hash_mismatch_aborts_witness :
    (backendC4.cat (object_path "repo" "aa11") = .ok "payload") ∧
    (envC4.decode_object "payload" ≠ "aa11") ∧
    ((∀ (fuel : Nat) (st : FetchRes), st.err = none → "aa11" ∉ st.seen →
        fetchGo envC4 backendC4 "repo" (fuel + 1) "aa11" st =
          { st with seen := "aa11" :: st.seen,
                    err := some (.runtimeError "hash mismatch") })
      ∧ (∀ (fuel : Nat) (root : String) (st : FetchRes),
          "aa11" ∉ st.writes → "aa11" ∉ (fetchGo envC4 backendC4 "repo" fuel root st).writes)
      ∧ (∀ (ffuel : Nat) (line : String) (rest : List String),
          parseFetchArg line = .ok "aa11" →
          fetchLoop envC4 backendC4 "repo" (ffuel + 1) line rest =
            .error (.runtimeError "hash mismatch"))) :=
  ⟨by decide, by decide,
    fetch_hash_mismatch_aborts envC4 backendC4 "repo" "aa11" "payload"
      (by decide) (by decide)⟩

/-- A trivial git environment for protocol-level scenarios. -/
def envTriv : GitEnv where
  symbolic_ref_value := fun _ => "refs/heads/main"
  ref_value := fun _ => "abc1"
  encode_object := fun _ => "OBJ"
  decode_object := fun d => d
  referenced_objects := fun _ => []
  merge_base_is_ancestor := fun _ _ => .completed 0
  list_objects := fun _ _ => ["abc1"]

/-- A trivial backend: empty remote, all operations succeed or report
absence. -/
def backendTriv : Backend where
  cat := fun _ => .error .dirNotFound
  lsjson := fun _ => .error .dirNotFound
  deletefile := fun _ => .ok ()

/-- Counterexample to claim C8: on the unrecognized top-level line
`bogus-command` the helper reports the error diagnostic and terminates the
session, but `run()` returns normally (the loop just breaks), so `main`
exits with status 0 — not the non-zero status the claim requires. -/
theorem unsupported_line_exit_counterexample :
    runSession envTriv backendTriv "repo" 1 ["bogus-command"] =
      .ok ([], [], ["unsupported operation: bogus-command"])
    ∧ mainExitCode (runSession envTriv backendTriv "repo" 1 ["bogus-command"]) = 0 :=
  ⟨by decide, by decide⟩

/-- Claim C8 (amended): an unrecognized command line read at top level makes
the helper report an `unsupported operation` error diagnostic and terminate
the session immediately (the remaining input is ignored), and the process
then exits with status zero, because `run()` returns normally; by contrast
a malformed line inside a push batch raises, aborting the session with a
non-zero exit status. -/
theorem unsupported_line_terminates_session (env : GitEnv) (backend : Backend)
    (bp : String) (ffuel fuel : Nat) (st : Session) (line : String) (rest : List String)
    (h1 : line ≠ "capabilities")
    (h2 : strStartsWith line "option" = false)
    (h3 : strStartsWith line "list" = false)
    (h4 : strStartsWith line "push" = false)
    (h5 : strStartsWith line "fetch" = false)
    (h6 : line ≠ "") :
    (runLoop env backend bp ffuel (fuel + 1) st (line :: rest) =
        .ok ([], [], ["unsupported operation: " ++ line])
      ∧ mainExitCode (runLoop env backend bp ffuel (fuel + 1) st (line :: rest)) = 0)
    ∧ (∀ (pline : String) (e : PyErr) (rest2 : List String),
        pline ≠ "capabilities" → strStartsWith pline "option" = false →
        strStartsWith pline "list" = false → strStartsWith pline "push" = true →
        parsePushArg pline = .error e →
        runLoop env backend bp ffuel (fuel + 1) st (pline :: rest2) = .error e
        ∧ mainExitCode (runLoop env backend bp ffuel (fuel + 1) st (pline :: rest2)) = 1) := by
  have main1 : runLoop env backend bp ffuel (fuel + 1) st (line :: rest) =
      .ok ([], [], ["unsupported operation: " ++ line]) := by
    unfold runLoop
    simp [h1, h2, h3, h4, h5, h6]
  refine ⟨⟨main1, by rw [main1]; rfl⟩, ?_⟩
  intro pline e rest2 hp1 hp2 hp3 hp4 hparse
  have hpl : pushLoop env backend bp st.first_push pline rest2 none = .error e := by
    cases rest2 with
    | nil => simp [pushLoop, pushStepLine, hparse]
    | cons a b => simp [pushLoop, pushStepLine, hparse]
  have main2 : runLoop env backend bp ffuel (fuel + 1) st (pline :: rest2) = .error e := by
    unfold runLoop
    simp [hp1, hp2, hp3, hp4, hpl]
  exact ⟨main2, by rw [main2]; rfl⟩

theorem unsupported_line_terminates_session_witness :
    (("bogus-command" : String) ≠ "capabilities") ∧
    (strStartsWith "bogus-command" "option" = false) ∧
    (strStartsWith "bogus-command" "list" = false) ∧
    (strStartsWith "bogus-command" "push" = false) ∧
    (strStartsWith "bogus-command" "fetch" = false) ∧
    (("bogus-command" : String) ≠ "") ∧
    ((runLoop envTriv backendTriv "repo" 0 1 ⟨1, true⟩ ["bogus-command"] =
        .ok ([], [], ["unsupported operation: bogus-command"])
      ∧ mainExitCode (runLoop envTriv backendTriv "repo" 0 1 ⟨1, true⟩ ["bogus-command"]) = 0)
    ∧ (∀ (pline : String) (e : PyErr) (rest2 : List String),
        pline ≠ "capabilities" → strStartsWith pline "option" = false →
        strStartsWith pline "list" = false → strStartsWith pline "push" = true →
        parsePushArg pline = .error e →
        runLoop envTriv backendTriv "repo" 0 1 ⟨1, true⟩ (pline :: rest2) = .error e
        ∧ mainExitCode (runLoop envTriv backendTriv "repo" 0 1 ⟨1, true⟩ (pline :: rest2)) = 1)) :=
  ⟨by decide, by decide, by decide, by decide, by decide, by decide,
    unsupported_line_terminates_session envTriv backendTriv "repo" 0 0 ⟨1, true⟩
      "bogus-command" [] (by decide) (by decide) (by decide) (by decide)
      (by decide) (by decide)⟩

/-- Whether an effect is a symbolic-ref write (`rclone rcat`). -/
def isRcat : Effect → Bool
  | .rcat _ _ => true
  | _ => false

/-- The remote-HEAD candidate selected over a parsed push batch, mirroring
the loop bookkeeping of `RcloneHelper.run` during the first push batch:
a delete line leaves the candidate unchanged; otherwise the pushed
destination becomes the candidate when no candidate exists yet or when the
raw (unstripped) source equals the local HEAD ref. -/
def selectRemoteHead (localHead : String) :
    List (String × String) → Option String → Option String
  | [], rh => rh
  | c :: cs, rh =>
      selectRemoteHead localHead cs
        (if c.1 = "" then rh
         else if rh = none ∨ c.1 = localHead then some c.2 else rh)

/-- Parse every line of a push batch. -/
def parseAllPush : List String → Except PyErr (List (String × String))
  | [] => .ok []
  | l :: ls =>
    match parsePushArg l with
    | .error e => .error e
    | .ok c =>
      match parseAllPush ls with
      | .error e => .error e
      | .ok cs => .ok (c :: cs)

/-- `pushGate` (hence `_push`) never writes a symbolic ref. -/
theorem pushGate_no_rcat (env : GitEnv) (backend : Backend)
    (bp src dst refpath : String) (force : Bool) (outs : List String)
    (effs : List Effect)
    (h : pushGate env backend bp src dst refpath force = .ok (outs, effs)) :
    effs.filter isRcat = [] := by
  unfold pushGate pushUpload at h
  repeat split at h
  all_goals try (cases h; rfl)
  all_goals rw [eq_comm] at h
  all_goals repeat split at h
  all_goals (cases h; rfl)

/-- `pushOne` never writes a symbolic ref. -/
theorem pushOne_no_rcat (env : GitEnv) (backend : Backend)
    (bp src dst : String) (outs : List String) (effs : List Effect)
    (h : pushOne env backend bp src dst = .ok (outs, effs)) :
    effs.filter isRcat = [] := by
  unfold pushOne at h
  split at h
  · exact absurd h (by simp)
  · split at h <;> exact pushGate_no_rcat env backend bp _ dst _ _ outs effs h

/-- The per-line dispatch never writes a symbolic ref. -/
theorem runPushCmd_no_rcat (env : GitEnv) (backend : Backend) (bp : String)
    (fp : Bool) (rh : Option String) (c : String × String) (outs : List String)
    (effs : List Effect) (rh' : Option String)
    (h : runPushCmd env backend bp fp rh c = .ok (outs, effs, rh')) :
    effs.filter isRcat = [] := by
  unfold runPushCmd at h
  split at h
  · cases hd : deleteOne backend bp c.2 with
    | error e => rw [hd] at h; exact absurd h (by simp)
    | ok v =>
      obtain ⟨o1, e1⟩ := v
      rw [hd] at h
      cases h
      unfold deleteOne at hd
      split at hd
      · exact absurd hd (by simp)
      · split at hd <;> (cases hd; rfl)
  · cases hp : pushOne env backend bp c.1 c.2 with
    | error e => rw [hp] at h; exact absurd h (by simp)
    | ok v =>
      obtain ⟨o1, e1⟩ := v
      rw [hp] at h
      cases h
      exact pushOne_no_rcat env backend bp c.1 c.2 _ _ hp

/-- During the first push batch, the candidate update of the dispatch is
exactly the `selectRemoteHead` step. -/
theorem runPushCmd_rh_step (env : GitEnv) (backend : Backend) (bp : String)
    (rh : Option String) (c : String × String) (outs : List String)
    (effs : List Effect) (rh' : Option String)
    (h : runPushCmd env backend bp true rh c = .ok (outs, effs, rh')) :
    rh' = (if c.1 = "" then rh
           else if rh = none ∨ c.1 = env.symbolic_ref_value "HEAD"
                then some c.2 else rh) := by
  unfold runPushCmd at h
  split at h
  · rename_i hc
    rw [if_pos hc]
    split at h
    · exact absurd h (by simp)
    · cases h; rfl
  · rename_i hc
    rw [if_neg hc]
    split at h
    · exact absurd h (by simp)
    · cases h
      unfold rhUpdate
      simp

/-- Filtering a HEAD write list for rcat effects keeps it whole. -/
theorem headEffects_filter (bp : String) (rh : Option String) :
    (headEffects bp rh).filter isRcat = headEffects bp rh := by
  cases rh <;> rfl

/-- Claim C6 (amended): at the end of the first push batch of a session
(`first_push` still set), remote HEAD is written symbolically — overwriting
whatever HEAD the remote may already have, since the helper never reads it —
to the destination selected by `selectRemoteHead`: the last pushed ref whose
raw source equals the local HEAD ref, or the first pushed ref when none
matches (deletes never become the candidate; a rejected push still does).
On later batches (`first_push` cleared) no symbolic-ref write happens at
all.  The rcat effects of the batch are exactly this selection. -/
theorem first_push_head_selection (env : GitEnv) (backend : Backend) (bp : String) :
    ∀ (restLines : List String) (fp : Bool) (line : String) (after : List String)
      (cmds : List (String × String)) (rh : Option String)
      (outs : List String) (effs : List Effect) (fp' : Bool) (rem : List String),
      (∀ l ∈ restLines, l ≠ "") →
      parseAllPush (line :: restLines) = .ok cmds →
      pushLoop env backend bp fp line (restLines ++ "" :: after) rh
        = .ok (outs, effs, fp', rem) →
      fp' = false ∧ rem = after ∧
      effs.filter isRcat =
        (if fp then headEffects bp (selectRemoteHead (env.symbolic_ref_value "HEAD") cmds rh)
         else []) := by
  intro restLines
  induction restLines with
  | nil =>
    intro fp line after cmds rh outs effs fp' rem hne hparse hrun
    cases hp : parsePushArg line with
    | error e =>
      unfold parseAllPush at hparse; rw [hp] at hparse; exact absurd hparse (by simp)
    | ok c =>
      unfold parseAllPush at hparse
      rw [hp] at hparse
      simp only [parseAllPush] at hparse
      injection hparse with hcmds
      subst hcmds
      simp only [List.nil_append] at hrun
      simp only [pushLoop, pushStepLine, hp] at hrun
      cases hrc : runPushCmd env backend bp fp rh c with
      | error e => rw [hrc] at hrun; exact absurd hrun (by simp)
      | ok v =>
        obtain ⟨o1, e1, rh1⟩ := v
        rw [hrc] at hrun
        dsimp only at hrun
        rw [if_pos trivial] at hrun
        cases hrun
        refine ⟨rfl, rfl, ?_⟩
        rw [List.filter_append, runPushCmd_no_rcat env backend bp fp rh c _ _ _ hrc,
          List.nil_append]
        cases fp with
        | false => simp [pushBatchFinish]
        | true =>
          simp only [pushBatchFinish, if_true, headEffects_filter]
          have hstep := runPushCmd_rh_step env backend bp rh c _ _ _ hrc
          rw [hstep]
          simp [selectRemoteHead]
  | cons l ls ih =>
    intro fp line after cmds rh outs effs fp' rem hne hparse hrun
    have hlne : l ≠ "" := hne l (by simp)
    have hne' : ∀ x ∈ ls, x ≠ "" := fun x hx => hne x (by simp [hx])
    cases hp : parsePushArg line with
    | error e =>
      unfold parseAllPush at hparse; rw [hp] at hparse; exact absurd hparse (by simp)
    | ok c =>
      unfold parseAllPush at hparse
      rw [hp] at hparse
      cases hps : parseAllPush (l :: ls) with
      | error e => rw [hps] at hparse; exact absurd hparse (by simp)
      | ok cs =>
        rw [hps] at hparse
        injection hparse with hcmds
        subst hcmds
        simp only [List.cons_append] at hrun
        simp only [pushLoop, pushStepLine, hp] at hrun
        cases hrc : runPushCmd env backend bp fp rh c with
        | error e => rw [hrc] at hrun; exact absurd hrun (by simp)
        | ok v =>
          obtain ⟨o1, e1, rh1⟩ := v
          rw [hrc] at hrun
          dsimp only at hrun
          rw [if_neg hlne] at hrun
          cases hrec : pushLoop env backend bp fp l (ls ++ "" :: after) rh1 with
          | error e => rw [hrec] at hrun; exact absurd hrun (by simp)
          | ok v2 =>
            obtain ⟨o2, e2, b2, rem2⟩ := v2
            rw [hrec] at hrun
            cases hrun
            obtain ⟨hb2, hrem2, hfilter⟩ :=
              ih fp l after cs rh1 _ _ _ _ hne' hps hrec
            refine ⟨hb2, hrem2, ?_⟩
            rw [List.filter_append, runPushCmd_no_rcat env backend bp fp rh c _ _ _ hrc,
              List.nil_append, hfilter]
            cases fp with
            | false => rfl
            | true =>
              simp only [if_true]
              have hstep := runPushCmd_rh_step env backend bp rh c _ _ _ hrc
              rw [hstep]
              simp [selectRemoteHead]

/-- A backend on which remote HEAD already exists (a symbolic ref to
`refs/heads/old`) while nothing else does. -/
def backendC6 : Backend where
  cat := fun p => if p = "repo/HEAD" then .ok "ref: refs/heads/old\n" else .error .dirNotFound
  lsjson := fun _ => .error .dirNotFound
  deletefile := fun _ => .ok ()

/-- Counterexample to claim C6: on the very first push batch of a session
the remote HEAD already exists (readable as `ref: refs/heads/old`), so the
claim requires remote HEAD to be left unchanged — yet the helper still
writes remote HEAD (it never reads remote HEAD before writing it), as the
`rcat` effect in the batch trace shows. -/
theorem head_overwrite_counterexample :
    backendC6.cat ("repo" ++ "/HEAD") = .ok "ref: refs/heads/old\n"
    ∧ pushLoop envTriv backendC6 "repo" true
        "push refs/heads/main:refs/heads/main" [] none =
      .ok (["ok refs/heads/main"],
        [.copyBatch [("repo/objects/ab/c1", "OBJ"), ("repo/refs/heads/main", "abc1\n")],
         .rcat "repo/HEAD" "ref: refs/heads/main\n"], false, []) :=
  ⟨by decide, by decide⟩

theorem first_push_head_selection_witness :
    (∀ l ∈ ["push refs/heads/main:refs/heads/main"], l ≠ "") ∧
    (parseAllPush ["push refs/heads/feature:refs/heads/feature",
        "push refs/heads/main:refs/heads/main"] =
      .ok [("refs/heads/feature", "refs/heads/feature"),
           ("refs/heads/main", "refs/heads/main")]) ∧
    (pushLoop envTriv backendTriv "repo" true
        "push refs/heads/feature:refs/heads/feature"
        (["push refs/heads/main:refs/heads/main"] ++ "" :: []) none =
      .ok (["ok refs/heads/feature", "ok refs/heads/main"],
        [.copyBatch [("repo/objects/ab/c1", "OBJ"), ("repo/refs/heads/feature", "abc1\n")],
         .copyBatch [("repo/objects/ab/c1", "OBJ"), ("repo/refs/heads/main", "abc1\n")],
         .rcat "repo/HEAD" "ref: refs/heads/main\n"], false, [])) ∧
    (false = false ∧ ([] : List String) = [] ∧
      ([Effect.copyBatch [("repo/objects/ab/c1", "OBJ"), ("repo/refs/heads/feature", "abc1\n")],
        Effect.copyBatch [("repo/objects/ab/c1", "OBJ"), ("repo/refs/heads/main", "abc1\n")],
        Effect.rcat "repo/HEAD" "ref: refs/heads/main\n"].filter isRcat =
       (if true then
          headEffects "repo" (selectRemoteHead (envTriv.symbolic_ref_value "HEAD")
            [("refs/heads/feature", "refs/heads/feature"),
             ("refs/heads/main", "refs/heads/main")] none)
        else []))) :=
  ⟨by decide, by decide, by decide,
    first_push_head_selection envTriv backendTriv "repo"
      ["push refs/heads/main:refs/heads/main"] true
      "push refs/heads/feature:refs/heads/feature" []
      [("refs/heads/feature", "refs/heads/feature"),
       ("refs/heads/main", "refs/heads/main")] none
      ["ok refs/heads/feature", "ok refs/heads/main"]
      [.copyBatch [("repo/objects/ab/c1", "OBJ"), ("repo/refs/heads/feature", "abc1\n")],
       .copyBatch [("repo/objects/ab/c1", "OBJ"), ("repo/refs/heads/main", "abc1\n")],
       .rcat "repo/HEAD" "ref: refs/heads/main\n"] false []
      (by decide) (by decide) (by decide)⟩

/-- In an ordered list of file writes, the write of path `p` is strictly
after every other write: `p` is the final entry and occurs nowhere
earlier. -/
def refWriteAfterAllObjects (p : String) (order : List (String × String)) : Prop :=
  (order.getLast?).map Prod.fst = some p
  ∧ ∀ e ∈ order.dropLast, e.1 ≠ p

instance (p : String) (order : List (String × String)) :
    Decidable (refWriteAfterAllObjects p order) :=
  inferInstanceAs (Decidable (((order.getLast?).map Prod.fst = some p)
    ∧ ∀ e ∈ order.dropLast, e.1 ≠ p))

/-- Counterexample to claim C5: the destination ref's new value is not
written strictly after every object of the push — `_batch_copy` stages the
ref into the same single `rclone copy` invocation as the objects, and that
transfer gives no ordering among the files of one batch (rclone moves the
files of a batch with several parallel transfers).  Modelling one
execution of the batch as a permutation of the staged files, the
permutation below is a valid execution that writes the ref before the
object, violating the ref-last property. -/
theorem ref_write_order_counterexample :
    pushOne envTriv backendTriv "repo" "refs/heads/main" "refs/heads/main" =
      .ok (["ok refs/heads/main"],
        [.copyBatch [("repo/objects/ab/c1", "OBJ"), ("repo/refs/heads/main", "abc1\n")]])
    ∧ [("repo/refs/heads/main", "abc1\n"), ("repo/objects/ab/c1", "OBJ")].Perm
        [("repo/objects/ab/c1", "OBJ"), ("repo/refs/heads/main", "abc1\n")]
    ∧ ¬ refWriteAfterAllObjects "repo/refs/heads/main"
        [("repo/refs/heads/main", "abc1\n"), ("repo/objects/ab/c1", "OBJ")] :=
  ⟨by decide, by decide, by decide⟩

/-- Claim C5 (amended): every object of the push closure and the new ref
value are staged locally before the single batch transfer is invoked, and
in staging order the ref file comes strictly after every object file; the
batch transfer itself provides no per-file ordering guarantee, so the
ref-last guarantee holds of the staging order, not of the remote write
order. -/
theorem batch_staging_ref_last (env : GitEnv) (bp dst new_sha : String)
    (objects : List String)
    (hne : ∀ o ∈ objects, object_path bp o ≠ bp ++ "/" ++ dst) :
    refWriteAfterAllObjects (bp ++ "/" ++ dst)
      (batchCopyFiles env bp dst new_sha objects) := by
  unfold refWriteAfterAllObjects batchCopyFiles
  constructor
  · simp [List.getLast?_concat]
  · intro e he
    rw [List.dropLast_concat] at he
    obtain ⟨o, ho, rfl⟩ := List.mem_map.mp he
    exact hne o ho

theorem batch_staging_ref_last_witness :
    (∀ o ∈ ["abc1"], object_path "repo" o ≠ "repo" ++ "/" ++ "refs/heads/main") ∧
    refWriteAfterAllObjects ("repo" ++ "/" ++ "refs/heads/main")
      (batchCopyFiles envTriv "repo" "refs/heads/main" "abc1" ["abc1"]) :=
  ⟨by decide,
    batch_staging_ref_last envTriv "repo" "refs/heads/main" "abc1" ["abc1"] (by decide)⟩

/-- Generic seen-set depth-first walk over a reference relation `adj`,
skipping nodes already seen and pruning nodes satisfying `prune`.  `fuel`
bounds the recursion depth; every theorem below either holds for all fuel
or assumes fuel exceeding the size of a closed universe. -/
def dfs (adj : String → List String) (prune : String → Bool) :
    Nat → String → List String → List String
  | 0, _, seen => seen
  | fuel+1, sha, seen =>
    if sha ∈ seen ∨ prune sha = true then seen
    else (adj sha).foldl (fun s r => dfs adj prune fuel r s) (sha :: seen)

/-- Modelled from the spec: the push closure `objectsToUpload(root,
present)` — the source's `git.list_objects`, which lives in the git module
absent from src/ — as a depth-first walk from `root` over the reference
relation, visiting each object at most once via a seen-set and pruning
every subtree whose root is already in `present`. -/
def listObjects (adj : String → List String) (present : List String)
    (fuel : Nat) (root : String) : List String :=
  dfs adj (fun h => decide (h ∈ present)) fuel root []

/-- Reachability from `a` along `adj` through unpruned nodes only: every
node on the witnessing path, endpoints included, avoids the pruned set. -/
inductive ReachA (adj : String → List String) (prune : String → Bool) (a : String) :
    String → Prop
  | refl : prune a = false → ReachA adj prune a a
  | tail (b c : String) : ReachA adj prune a b → c ∈ adj b → prune c = false →
      ReachA adj prune a c

/-- Reachability extends backwards across one unpruned edge. -/
theorem ReachA_head (adj : String → List String) (prune : String → Bool)
    (a b x : String) (ha : prune a = false) (hb : b ∈ adj a)
    (h : ReachA adj prune b x) : ReachA adj prune a x := by
  induction h with
  | refl hpb => exact .tail a b (.refl ha) hb hpb
  | tail m c _ hc hpc ih => exact .tail m c ih hc hpc

/-- The walk only ever grows the seen accumulator. -/
theorem dfs_sub (adj : String → List String) (prune : String → Bool) :
    ∀ (fuel : Nat) (sha : String) (seen : List String),
      seen ⊆ dfs adj prune fuel sha seen := by
  intro fuel
  induction fuel with
  | zero => intro sha seen x hx; exact hx
  | succ n ih =>
    intro sha seen
    unfold dfs
    split
    · exact fun x hx => hx
    · have fold : ∀ (l : List String) (acc : List String),
          acc ⊆ l.foldl (fun s r => dfs adj prune n r s) acc := by
        intro l
        induction l with
        | nil => intro acc x hx; exact hx
        | cons hd tl ihl =>
          intro acc x hx
          exact ihl (dfs adj prune n hd acc) (ih hd acc hx)
      exact fun x hx => fold (adj sha) (sha :: seen) (List.mem_cons_of_mem _ hx)

/-- Accumulator growth for a fold of walks. -/
theorem dfs_foldl_sub (adj : String → List String) (prune : String → Bool)
    (n : Nat) :
    ∀ (l : List String) (acc : List String),
      acc ⊆ l.foldl (fun s r => dfs adj prune n r s) acc := by
  intro l
  induction l with
  | nil => intro acc x hx; exact hx
  | cons hd tl ihl =>
    intro acc x hx
    exact ihl (dfs adj prune n hd acc) (dfs_sub adj prune n hd acc hx)

/-- An unpruned start node is in the walk's result whenever there is any
fuel at all. -/
theorem dfs_mem_self (adj : String → List String) (prune : String → Bool)
    (fuel : Nat) (sha : String) (seen : List String)
    (hp : prune sha = false) : sha ∈ dfs adj prune (fuel+1) sha seen := by
  unfold dfs
  split
  · rename_i h
    rcases h with h | h
    · exact h
    · rw [hp] at h; exact absurd h (by simp)
  · exact dfs_foldl_sub adj prune fuel (adj sha) (sha :: seen) (List.mem_cons_self _ _)

/-- Inside a closed universe, the walk stays inside the universe. -/
theorem dfs_subset_closed (adj : String → List String) (prune : String → Bool)
    (U : Finset String) (hU : ∀ a ∈ U, ∀ b ∈ adj a, b ∈ U) :
    ∀ (fuel : Nat) (sha : String) (seen : List String),
      sha ∈ U → (∀ x ∈ seen, x ∈ U) →
      ∀ x ∈ dfs adj prune fuel sha seen, x ∈ U := by
  intro fuel
  induction fuel with
  | zero => intro sha seen _ hseen x hx; exact hseen x hx
  | succ n ih =>
    intro sha seen hsha hseen
    unfold dfs
    split
    · exact hseen
    · have fold : ∀ (l : List String) (acc : List String),
          (∀ r ∈ l, r ∈ U) → (∀ x ∈ acc, x ∈ U) →
          ∀ x ∈ l.foldl (fun s r => dfs adj prune n r s) acc, x ∈ U := by
        intro l
        induction l with
        | nil => intro acc _ hacc x hx; exact hacc x hx
        | cons hd tl ihl =>
          intro acc hl hacc x hx
          exact ihl (dfs adj prune n hd acc) (fun r hr => hl r (List.mem_cons_of_mem _ hr))
            (ih hd acc (hl hd (List.mem_cons_self _ _)) hacc) x hx
      intro x hx
      exact fold (adj sha) (sha :: seen) (hU sha hsha)
        (fun y hy => by
          rcases List.mem_cons.mp hy with rfl | hy
          · exact hsha
          · exact hseen y hy) x hx

/-- Soundness of the walk: everything it adds to the accumulator is
reachable from the start through unpruned nodes. -/
theorem dfs_sound (adj : String → List String) (prune : String → Bool) :
    ∀ (fuel : Nat) (sha : String) (seen : List String) (x : String),
      x ∈ dfs adj prune fuel sha seen → x ∈ seen ∨ ReachA adj prune sha x := by
  intro fuel
  induction fuel with
  | zero => intro sha seen x hx; exact Or.inl hx
  | succ n ih =>
    intro sha seen x
    unfold dfs
    split
    · exact fun hx => Or.inl hx
    · rename_i hcond
      intro hx
      have hsha_not : sha ∉ seen := fun h => hcond (Or.inl h)
      have hp : prune sha = false := by
        cases hps : prune sha with
        | false => rfl
        | true => exact absurd (Or.inr hps) hcond
      have fold : ∀ (l : List String) (acc : List String) (x : String),
          x ∈ l.foldl (fun s r => dfs adj prune n r s) acc →
          x ∈ acc ∨ ∃ r ∈ l, ReachA adj prune r x := by
        intro l
        induction l with
        | nil => intro acc x hx; exact Or.inl hx
        | cons hd tl ihl =>
          intro acc x hx
          rcases ihl (dfs adj prune n hd acc) x hx with hacc | ⟨r, hr, hrx⟩
          · rcases ih hd acc x hacc with h1 | h2
            · exact Or.inl h1
            · exact Or.inr ⟨hd, List.mem_cons_self _ _, h2⟩
          · exact Or.inr ⟨r, List.mem_cons_of_mem _ hr, hrx⟩
      rcases fold (adj sha) (sha :: seen) x hx with hcons | ⟨r, hr, hrx⟩
      · rcases List.mem_cons.mp hcons with rfl | hseen
        · exact Or.inr (.refl hp)
        · exact Or.inl hseen
      · exact Or.inr (ReachA_head adj prune sha r x hp hr hrx)

/-- The walk preserves freedom from duplicates. -/
theorem dfs_nodup (adj : String → List String) (prune : String → Bool) :
    ∀ (fuel : Nat) (sha : String) (seen : List String),
      seen.Nodup → (dfs adj prune fuel sha seen).Nodup := by
  intro fuel
  induction fuel with
  | zero => intro sha seen h; exact h
  | succ n ih =>
    intro sha seen hseen
    unfold dfs
    split
    · exact hseen
    · rename_i hcond
      have hsha_not : sha ∉ seen := fun h => hcond (Or.inl h)
      have fold : ∀ (l : List String) (acc : List String),
          acc.Nodup → (l.foldl (fun s r => dfs adj prune n r s) acc).Nodup := by
        intro l
        induction l with
        | nil => intro acc h; exact h
        | cons hd tl ihl => intro acc h; exact ihl _ (ih hd acc h)
      exact fold (adj sha) (sha :: seen) (List.nodup_cons.mpr ⟨hsha_not, hseen⟩)

/-- Seeing one fresh universe element decreases the count of unseen
universe elements by exactly one. -/
theorem card_filter_cons (U : Finset String) (sha : String) (seen : List String)
    (hsha : sha ∈ U) (hnot : sha ∉ seen) :
    (U.filter (fun x => x ∉ (sha :: seen))).card + 1
      = (U.filter (fun x => x ∉ seen)).card := by
  have hmem : sha ∈ U.filter (fun x => x ∉ seen) :=
    Finset.mem_filter.mpr ⟨hsha, hnot⟩
  have hset : U.filter (fun x => x ∉ (sha :: seen))
      = (U.filter (fun x => x ∉ seen)).erase sha := by
    ext x
    simp only [Finset.mem_filter, Finset.mem_erase, List.mem_cons, not_or]
    constructor
    · rintro ⟨hxU, hne, hns⟩; exact ⟨hne, hxU, hns⟩
    · rintro ⟨hne, hxU, hns⟩; exact ⟨hxU, hne, hns⟩
  rw [hset, Finset.card_erase_of_mem hmem]
  have hpos : 0 < (U.filter (fun x => x ∉ seen)).card :=
    Finset.card_pos.mpr ⟨sha, hmem⟩
  omega

/-- The count of unseen universe elements is antitone in the seen list. -/
theorem card_filter_mono (U : Finset String) (s t : List String) (h : s ⊆ t) :
    (U.filter (fun x => x ∉ t)).card ≤ (U.filter (fun x => x ∉ s)).card := by
  apply Finset.card_le_card
  intro x hx
  rw [Finset.mem_filter] at hx ⊢
  exact ⟨hx.1, fun hs => hx.2 (h hs)⟩

/-- Completeness core of the walk: with fuel exceeding the number of unseen
universe elements, every element of the result either came from the
initial accumulator or has all of its unpruned successors in the result,
and every unpruned immediate successor of the start is in the result. -/
theorem dfs_post (adj : String → List String) (prune : String → Bool)
    (U : Finset String) (hU : ∀ a ∈ U, ∀ b ∈ adj a, b ∈ U) :
    ∀ (fuel : Nat) (sha : String) (seen : List String),
      sha ∈ U → (∀ x ∈ seen, x ∈ U) →
      (U.filter (fun x => x ∉ seen)).card + 1 ≤ fuel →
      ∀ a ∈ dfs adj prune fuel sha seen,
        a ∈ seen ∨ ∀ b ∈ adj a, prune b = false → b ∈ dfs adj prune fuel sha seen := by
  intro fuel
  induction fuel with
  | zero => intro sha seen _ _ hf; exact absurd hf (by omega)
  | succ n ih =>
    intro sha seen hsha hseen hf
    unfold dfs
    split
    · intro a ha; exact Or.inl ha
    · rename_i hcond
      have hsha_not : sha ∉ seen := fun h => hcond (Or.inl h)
      have hcard : (U.filter (fun x => x ∉ (sha :: seen))).card + 1 ≤ n := by
        have := card_filter_cons U sha seen hsha hsha_not
        omega
      have fold : ∀ (l : List String) (acc : List String),
          (∀ r ∈ l, r ∈ U) → (∀ x ∈ acc, x ∈ U) →
          (U.filter (fun x => x ∉ acc)).card + 1 ≤ n →
          (∀ a ∈ l.foldl (fun s r => dfs adj prune n r s) acc,
            a ∈ acc ∨ ∀ b ∈ adj a, prune b = false →
              b ∈ l.foldl (fun s r => dfs adj prune n r s) acc)
          ∧ (∀ r ∈ l, prune r = false →
              r ∈ l.foldl (fun s r => dfs adj prune n r s) acc) := by
        intro l
        induction l with
        | nil =>
          intro acc _ _ _
          exact ⟨fun a ha => Or.inl ha, fun r hr => absurd hr (List.not_mem_nil r)⟩
        | cons hd tl ihl =>
          intro acc hl hacc hcacc
          have hhd : hd ∈ U := hl hd (List.mem_cons_self _ _)
          have post1 := ih hd acc hhd hacc hcacc
          have ht1U : ∀ x ∈ dfs adj prune n hd acc, x ∈ U :=
            dfs_subset_closed adj prune U hU n hd acc hhd hacc
          have hsub1 : acc ⊆ dfs adj prune n hd acc := dfs_sub adj prune n hd acc
          have hcard1 : (U.filter (fun x => x ∉ dfs adj prune n hd acc)).card + 1 ≤ n :=
            le_trans (by
              have := card_filter_mono U acc (dfs adj prune n hd acc) hsub1
              omega) hcacc
          obtain ⟨post2, child2⟩ := ihl (dfs adj prune n hd acc)
            (fun r hr => hl r (List.mem_cons_of_mem _ hr)) ht1U hcard1
          have hsubres : dfs adj prune n hd acc ⊆
              tl.foldl (fun s r => dfs adj prune n r s) (dfs adj prune n hd acc) :=
            dfs_foldl_sub adj prune n tl (dfs adj prune n hd acc)
          constructor
          · intro a ha
            rcases post2 a ha with h1 | h2
            · rcases post1 a h1 with hacc' | hdone
              · exact Or.inl hacc'
              · exact Or.inr (fun b hb hpb => hsubres (hdone b hb hpb))
            · exact Or.inr h2
          · intro r hr hpr
            rcases List.mem_cons.mp hr with rfl | hr'
            · obtain ⟨m, rfl⟩ : ∃ m, n = m + 1 := ⟨n - 1, by omega⟩
              exact hsubres (dfs_mem_self adj prune m r acc hpr)
            · exact child2 r hr' hpr
      obtain ⟨post, child⟩ := fold (adj sha) (sha :: seen) (hU sha hsha)
        (fun y hy => by
          rcases List.mem_cons.mp hy with rfl | hy
          · exact hsha
          · exact hseen y hy) hcard
      intro a ha
      rcases post a ha with hcons | hdone
      · rcases List.mem_cons.mp hcons with rfl | hmem
        · exact Or.inr (fun b hb hpb => child b hb hpb)
        · exact Or.inl hmem
      · exact Or.inr hdone

/-- Completeness of the walk from an empty accumulator: with fuel exceeding
the universe size, everything reachable through unpruned nodes is in the
result. -/
theorem dfs_complete (adj : String → List String) (prune : String → Bool)
    (U : Finset String) (hU : ∀ a ∈ U, ∀ b ∈ adj a, b ∈ U)
    (root : String) (hroot : root ∈ U) (fuel : Nat)
    (hfuel : U.card + 1 ≤ fuel) :
    ∀ x, ReachA adj prune root x → x ∈ dfs adj prune fuel root [] := by
  have hcard : (U.filter (fun x => x ∉ ([] : List String))).card + 1 ≤ fuel := by
    simpa using hfuel
  have hpost := dfs_post adj prune U hU fuel root [] hroot
    (fun x hx => absurd hx (List.not_mem_nil x)) hcard
  intro x hx
  induction hx with
  | refl hp =>
    obtain ⟨m, rfl⟩ : ∃ m, fuel = m + 1 := ⟨fuel - 1, by omega⟩
    exact dfs_mem_self adj prune m root [] hp
  | tail b c _ hcb hpc ih =>
    rcases hpost b ih with h1 | h2
    · exact absurd h1 (List.not_mem_nil b)
    · exact h2 c hcb hpc

/-- Claim C2: the push closure `objectsToUpload(root, present)` contains a
hash exactly when it is reachable from `root` by a path avoiding every
member of `present` (endpoints included): nothing reachable only through a
member of `present` is included — the prune predicate `decide (h ∈
present)` is false on every node of any witnessing path — and nothing
reachable while avoiding `present` is omitted; and each included hash
appears exactly once. -/
theorem listObjects_correct (adj : String → List String) (present : List String)
    (root : String) (U : Finset String) (fuel : Nat)
    (hU : ∀ a ∈ U, ∀ b ∈ adj a, b ∈ U) (hroot : root ∈ U)
    (hfuel : U.card + 1 ≤ fuel) :
    (∀ x, x ∈ listObjects adj present fuel root ↔
      ReachA adj (fun h => decide (h ∈ present)) root x)
    ∧ (listObjects adj present fuel root).Nodup := by
  constructor
  · intro x
    constructor
    · intro hx
      rcases dfs_sound adj _ fuel root [] x hx with h | h
      · exact absurd h (List.not_mem_nil x)
      · exact h
    · exact dfs_complete adj _ U hU root hroot fuel hfuel x
  · exact dfs_nodup adj _ fuel root [] List.nodup_nil

/-- The reference relation of the C2 witness: a diamond whose right branch
(`p`, referencing `b` and `q`) is already present remotely. -/
def adjC2 : String → List String := fun s =>
  if s = "r" then ["a", "p"]
  else if s = "a" then ["b"]
  else if s = "p" then ["b", "q"]
  else []

theorem listObjects_correct_witness :
    (∀ a ∈ ({"r", "a", "p", "b", "q"} : Finset String), ∀ b ∈ adjC2 a,
        b ∈ ({"r", "a", "p", "b", "q"} : Finset String)) ∧
    ("r" ∈ ({"r", "a", "p", "b", "q"} : Finset String)) ∧
    (({"r", "a", "p", "b", "q"} : Finset String).card + 1 ≤ 6) ∧
    ((∀ x, x ∈ listObjects adjC2 ["p"] 6 "r" ↔
        ReachA adjC2 (fun h => decide (h ∈ ["p"])) "r" x)
      ∧ (listObjects adjC2 ["p"] 6 "r").Nodup) :=
  ⟨by decide, by decide, by decide,
    listObjects_correct adjC2 ["p"] "r" {"r", "a", "p", "b", "q"} 6
      (by decide) (by decide) (by decide)⟩

/-- The remotely stored bytes of object `s` are readable and hash back to
`s` under `git.decode_object`. -/
def objectIntact (env : GitEnv) (backend : Backend) (bp : String) (s : String) : Prop :=
  match backend.cat (object_path bp s) with
  | .ok d => env.decode_object d = s
  | .error _ => False

instance (env : GitEnv) (backend : Backend) (bp s : String) :
    Decidable (objectIntact env backend bp s) :=
  match hc : backend.cat (object_path bp s) with
  | .ok d => decidable_of_iff (env.decode_object d = s) (by unfold objectIntact; rw [hc])
  | .error e => isFalse (by unfold objectIntact; rw [hc]; exact fun h => h)

/-- Unfolding of `objectIntact` into its witnesses. -/
theorem objectIntact_elim (env : GitEnv) (backend : Backend) (bp s : String)
    (h : objectIntact env backend bp s) :
    ∃ d, backend.cat (object_path bp s) = .ok d ∧ env.decode_object d = s := by
  unfold objectIntact at h
  cases hc : backend.cat (object_path bp s) with
  | ok d =>
    rw [hc] at h
    exact ⟨d, rfl, h⟩
  | error e =>
    rw [hc] at h
    exact absurd h (fun f => f)

/-- Simulation of the error-free fetch walk by the generic unpruned DFS:
over a closed universe of intact objects, `_fetch` never raises, its
seen-set evolves exactly as the DFS seen-set, its write list is the
reverse of its seen-set (each object accepted exactly when first seen),
and it stays inside the universe. -/
theorem fetchGo_sim (env : GitEnv) (backend : Backend) (bp : String)
    (U : Finset String)
    (hU : ∀ a ∈ U, ∀ b ∈ env.referenced_objects a, b ∈ U)
    (hintact : ∀ s ∈ U, objectIntact env backend bp s) :
    ∀ (fuel : Nat) (sha : String) (st : FetchRes),
      sha ∈ U → (∀ x ∈ st.seen, x ∈ U) → st.err = none →
      st.seen = st.writes.reverse →
      (fetchGo env backend bp fuel sha st).err = none
      ∧ (fetchGo env backend bp fuel sha st).seen
          = dfs env.referenced_objects (fun _ => false) fuel sha st.seen
      ∧ (fetchGo env backend bp fuel sha st).seen
          = (fetchGo env backend bp fuel sha st).writes.reverse
      ∧ (∀ x ∈ (fetchGo env backend bp fuel sha st).seen, x ∈ U) := by
  intro fuel
  induction fuel with
  | zero =>
    intro sha st _ hstU herr hrev
    exact ⟨herr, rfl, hrev, hstU⟩
  | succ n ih =>
    intro sha st hsha hstU herr hrev
    have fold : ∀ (l : List String) (st : FetchRes),
        (∀ r ∈ l, r ∈ U) → (∀ x ∈ st.seen, x ∈ U) → st.err = none →
        st.seen = st.writes.reverse →
        ((l.foldl (fun s r => fetchGo env backend bp n r s) st).err = none
        ∧ (l.foldl (fun s r => fetchGo env backend bp n r s) st).seen
            = l.foldl (fun s r => dfs env.referenced_objects (fun _ => false) n r s)
                st.seen
        ∧ (l.foldl (fun s r => fetchGo env backend bp n r s) st).seen
            = (l.foldl (fun s r => fetchGo env backend bp n r s) st).writes.reverse
        ∧ (∀ x ∈ (l.foldl (fun s r => fetchGo env backend bp n r s) st).seen, x ∈ U)) := by
      intro l
      induction l with
      | nil => intro st _ h2 h3 h4; exact ⟨h3, rfl, h4, h2⟩
      | cons hd tl ihl =>
        intro st hl hstU2 herr2 hrev2
        obtain ⟨e1, s1, w1, u1⟩ :=
          ih hd st (hl hd (List.mem_cons_self _ _)) hstU2 herr2 hrev2
        obtain ⟨e2, s2, w2, u2⟩ := ihl (fetchGo env backend bp n hd st)
          (fun r hr => hl r (List.mem_cons_of_mem _ hr)) u1 e1 w1
        refine ⟨e2, ?_, w2, u2⟩
        rw [List.foldl_cons, List.foldl_cons, s2, s1]
    by_cases hseen : sha ∈ st.seen
    · have hfe : fetchGo env backend bp (n+1) sha st = st := by
        unfold fetchGo
        rw [herr]
        simp [hseen]
      have hde : dfs env.referenced_objects (fun _ => false) (n+1) sha st.seen
          = st.seen := by
        unfold dfs
        simp [hseen]
      rw [hfe, hde]
      exact ⟨herr, rfl, hrev, hstU⟩
    · obtain ⟨d, hcat, hdec⟩ := objectIntact_elim env backend bp sha (hintact sha hsha)
      have hfe : fetchGo env backend bp (n+1) sha st =
          (env.referenced_objects sha).foldl (fun s r => fetchGo env backend bp n r s)
            ⟨sha :: st.seen, st.writes ++ [sha], none⟩ := by
        simp only [fetchGo]
        rw [herr]
        simp only [Option.isSome_none, Bool.false_eq_true, if_false]
        rw [if_neg hseen, hcat]
        dsimp only
        rw [if_pos hdec]
      have hde : dfs env.referenced_objects (fun _ => false) (n+1) sha st.seen =
          (env.referenced_objects sha).foldl
            (fun s r => dfs env.referenced_objects (fun _ => false) n r s)
            (sha :: st.seen) := by
        simp only [dfs]
        rw [if_neg (by simp [hseen])]
      rw [hfe, hde]
      exact fold (env.referenced_objects sha)
        ⟨sha :: st.seen, st.writes ++ [sha], none⟩
        (hU sha hsha)
        (fun y hy => by
          rcases List.mem_cons.mp hy with rfl | hy
          · exact hsha
          · exact hstU y hy)
        rfl
        (by simp [hrev])

/-- Claim C3: over any finite closed reference relation — reference cycles
and diamond-shaped sharing included — with every object intact on the
remote and fuel exceeding the universe size, the recursive fetch walk
`_fetch(root)` completes without raising, and the list of objects it
accepts into the local database contains exactly the objects in the
transitive closure of `root`, each exactly once (the seen-set prevents any
object from being fetched twice). -/
theorem fetch_closure_correct (env : GitEnv) (backend : Backend) (bp : String)
    (U : Finset String) (root : String) (fuel : Nat)
    (hU : ∀ a ∈ U, ∀ b ∈ env.referenced_objects a, b ∈ U)
    (hroot : root ∈ U)
    (hintact : ∀ s ∈ U, objectIntact env backend bp s)
    (hfuel : U.card + 1 ≤ fuel) :
    (fetchGo env backend bp fuel root ⟨[], [], none⟩).err = none
    ∧ (∀ x, x ∈ (fetchGo env backend bp fuel root ⟨[], [], none⟩).writes ↔
        ReachA env.referenced_objects (fun _ => false) root x)
    ∧ (fetchGo env backend bp fuel root ⟨[], [], none⟩).writes.Nodup := by
  obtain ⟨herr, hseen, hwr, _⟩ := fetchGo_sim env backend bp U hU hintact fuel root
    ⟨[], [], none⟩ hroot (fun x hx => absurd hx (List.not_mem_nil x)) rfl rfl
  refine ⟨herr, ?_, ?_⟩
  · intro x
    have hmem : x ∈ (fetchGo env backend bp fuel root ⟨[], [], none⟩).writes ↔
        x ∈ (fetchGo env backend bp fuel root ⟨[], [], none⟩).seen := by
      rw [hwr]
      exact (List.mem_reverse).symm
    rw [hmem, hseen]
    constructor
    · intro hx
      rcases dfs_sound env.referenced_objects _ fuel root [] x hx with h | h
      · exact absurd h (List.not_mem_nil x)
      · exact h
    · exact dfs_complete env.referenced_objects _ U hU root hroot fuel hfuel x
  · have hnd : (fetchGo env backend bp fuel root ⟨[], [], none⟩).seen.Nodup := by
      rw [hseen]
      exact dfs_nodup env.referenced_objects _ fuel root [] List.nodup_nil
    rw [hwr] at hnd
    exact (List.nodup_reverse).mp hnd

/-- The reference relation of the C3 witness: a two-object reference cycle
(`aa11` and `bb22` reference each other) with diamond-shaped sharing of
`cc33` (reached both through `bb22` and through `dd44`). -/
def adjC3 : String → List String := fun s =>
  if s = "aa11" then ["bb22", "dd44"]
  else if s = "bb22" then ["aa11", "cc33"]
  else if s = "dd44" then ["cc33"]
  else []

/-- A git environment over `adjC3` whose hash recomputation is the
identity on the stored bytes. -/
def envC3 : GitEnv where
  symbolic_ref_value := fun _ => "refs/heads/main"
  ref_value := fun _ => "aa11"
  encode_object := fun _ => "OBJ"
  decode_object := fun d => d
  referenced_objects := adjC3
  merge_base_is_ancestor := fun _ _ => .completed 0
  list_objects := fun _ _ => []

/-- A backend storing each witness object under its sharded path with
bytes that hash back to its name. -/
def backendC3 : Backend where
  cat := fun p =>
    if p = "repo/objects/aa/11" then .ok "aa11"
    else if p = "repo/objects/bb/22" then .ok "bb22"
    else if p = "repo/objects/cc/33" then .ok "cc33"
    else if p = "repo/objects/dd/44" then .ok "dd44"
    else .error .dirNotFound
  lsjson := fun _ => .error .dirNotFound
  deletefile := fun _ => .ok ()

theorem fetch_closure_correct_witness :
    (∀ a ∈ ({"aa11", "bb22", "cc33", "dd44"} : Finset String),
      ∀ b ∈ envC3.referenced_objects a,
        b ∈ ({"aa11", "bb22", "cc33", "dd44"} : Finset String)) ∧
    ("aa11" ∈ ({"aa11", "bb22", "cc33", "dd44"} : Finset String)) ∧
    (∀ s ∈ ({"aa11", "bb22", "cc33", "dd44"} : Finset String),
      objectIntact envC3 backendC3 "repo" s) ∧
    (({"aa11", "bb22", "cc33", "dd44"} : Finset String).card + 1 ≤ 5) ∧
    ((fetchGo envC3 backendC3 "repo" 5 "aa11" ⟨[], [], none⟩).err = none
      ∧ (∀ x, x ∈ (fetchGo envC3 backendC3 "repo" 5 "aa11" ⟨[], [], none⟩).writes ↔
          ReachA envC3.referenced_objects (fun _ => false) "aa11" x)
      ∧ (fetchGo envC3 backendC3 "repo" 5 "aa11" ⟨[], [], none⟩).writes.Nodup) :=
  ⟨by decide, by decide, by decide, by decide,
    fetch_closure_correct envC3 backendC3 "repo" {"aa11", "bb22", "cc33", "dd44"}
      "aa11" 5 (by decide) (by decide) (by decide) (by decide)⟩
